import Mathlib

/-!
Verification of the idea-tracker core: a shallow embedding of the pure
helper module (src/unnamed/part_010, ideas.ts) and of the stateful
manager hook (useIdeasManager), together with theorems settling the
frozen behavioural claims.

Strings are modelled as lists of characters.  The impure inputs of the
source (the current time from Date, fresh identifiers from randomUUID)
are determinized as explicit parameters: a timestamp parameter, and an
identifier factory indexed by call order.
-/

set_option autoImplicit false

namespace IdeaTracker

/-! ### String model -/

/-- Characters are modelled directly; a JS string is a list of characters. -/
abbrev Str := List Char

/-- Embed a Lean string literal into the model. -/
def str (s : String) : Str := s.data

/-- Whitespace as recognized by the JS trim and the split patterns used in
the source (space, tab, newline, carriage return, vertical tab, form feed). -/
def ws (c : Char) : Bool :=
  c = ' ' || c = '\t' || c = '\n' || c = '\r' || c = '\x0b' || c = '\x0c'

/-- Drop leading whitespace, as the front half of String.prototype.trim. -/
def trimStart (s : Str) : Str := s.dropWhile ws

/-- Drop trailing whitespace, as the back half of String.prototype.trim. -/
def trimEnd (s : Str) : Str := (s.reverse.dropWhile ws).reverse

/-- JS String.prototype.trim. -/
def trim (s : Str) : Str := trimEnd (trimStart s)

/-- JS String.prototype.split with a single-character separator: the list of
segments between occurrences of the separator (always non-empty). -/
def splitOnChar (sep : Char) : Str → List Str
  | [] => [[]]
  | c :: cs =>
    if c = sep then [] :: splitOnChar sep cs
    else
      match splitOnChar sep cs with
      | [] => [[c]]
      | h :: t => (c :: h) :: t

/-- Split on newline characters. -/
def splitNl (s : Str) : List Str := splitOnChar '\n' s

/-- Remove one trailing carriage return, if present. -/
def stripCR (l : Str) : Str := if l.getLast? = some '\r' then l.dropLast else l

/-- Apply a function to every element except the last one. -/
def mapExceptLast (f : Str → Str) : List Str → List Str
  | [] => []
  | [x] => [x]
  | x :: y :: t => f x :: mapExceptLast f (y :: t)

/-- JS String.prototype.split on the pattern CR-optional-then-LF: split on
newlines, then drop the carriage return that immediately preceded each
consumed newline. -/
def splitLines (s : Str) : List Str := mapExceptLast stripCR (splitNl s)

/-- JS Array.prototype.join with a separator string. -/
def joinSep (sep : Str) : List Str → Str
  | [] => []
  | [x] => x
  | x :: y :: t => x ++ sep ++ joinSep sep (y :: t)

/-- JS Array.prototype.map with the element index as second callback
argument, generalized over the starting index. -/
def mapIdxFrom {α β : Type} (f : Nat → α → β) (i : Nat) : List α → List β
  | [] => []
  | a :: as => f i a :: mapIdxFrom f (i + 1) as

/-- JS Array.prototype.map with the element index as second callback
argument. -/
def jsMapIdx {α β : Type} (f : Nat → α → β) (l : List α) : List β :=
  mapIdxFrom f 0 l

/-- JS Array.prototype.some with the element index as second callback
argument, generalized over the starting index. -/
def anyIdxFrom {α : Type} (p : Nat → α → Bool) (i : Nat) : List α → Bool
  | [] => false
  | a :: as => p i a || anyIdxFrom p (i + 1) as

/-- JS Array.prototype.some with the element index as second callback
argument. -/
def jsAnyIdx {α : Type} (p : Nat → α → Bool) (l : List α) : Bool :=
  anyIdxFrom p 0 l

theorem splitOnChar_ne_nil (sep : Char) (s : Str) : splitOnChar sep s ≠ [] := by
  cases s with
  | nil => simp [splitOnChar]
  | cons c cs =>
    simp only [splitOnChar]
    split
    · simp
    · split <;> simp

theorem splitNl_ne_nil (s : Str) : splitNl s ≠ [] := splitOnChar_ne_nil '\n' s

/-! ### Data model (ideas.ts)

Embeds the types IdeaFeature and Idea from src/unnamed/part_010.
Timestamps stay opaque strings, as in the source. -/

structure IdeaFeature where
  id : Str
  content : Str
  createdAt : Str
deriving DecidableEq

structure Idea where
  id : Str
  title : Str
  summary : Option Str
  tags : List Str
  isPinned : Bool
  isArchived : Bool
  features : List IdeaFeature
  createdAt : Str
  updatedAt : Str
deriving DecidableEq

/-! ### Pure helpers (ideas.ts) -/

/-- Embedding of createFeaturesFromText.  The optional timestamp and id
factory of the source (defaulting to the current time and randomUUID) are
explicit: timestamp is the effective timestamp, and idFactory n is the
identifier produced by the n-th call of the factory. -/
def createFeaturesFromText (block : Option Str) (timestamp : Str)
    (idFactory : Nat → Str) : List IdeaFeature :=
  match block with
  | none => []
  | some b =>
    let text := trim b
    if text.isEmpty then []
    else
      jsMapIdx (fun i content => ⟨idFactory i, content, timestamp⟩)
        (((splitLines text).map trim).filter (fun l => !l.isEmpty))

/-- Embedding of mergeFeatureBodies.  New features created at result
position i take the (i - existingFeatures.length)-th identifier from the
factory, matching the call order of the source makeId. -/
def mergeFeatureBodies (existingFeatures : List IdeaFeature)
    (featureBodies : List Str) (timestamp : Str) (idFactory : Nat → Str) :
    List IdeaFeature :=
  if ((featureBodies.map trim).filter (fun l => !l.isEmpty)).isEmpty then []
  else
    jsMapIdx
      (fun i content =>
        match existingFeatures[i]? with
        | some existing => { existing with content := content }
        | none => ⟨idFactory (i - existingFeatures.length), content, timestamp⟩)
      ((featureBodies.map trim).filter (fun l => !l.isEmpty))

/-- Embedding of parseTagsInput. -/
def parseTagsInput (input : Option Str) : List Str :=
  match input with
  | none => []
  | some s =>
    if s.isEmpty then []
    else ((splitOnChar ',' s).map trim).filter (fun t => t.length > 0)

/-- Embedding of the CreateIdeaParams parameter object of createIdea. -/
structure CreateIdeaParams where
  title : Str
  summary : Option Str := none
  tags : Option (List Str) := none
  features : Option (List IdeaFeature) := none
  createdAt : Option Str := none
  updatedAt : Option Str := none
  isPinned : Option Bool := none
  isArchived : Option Bool := none

/-- Embedding of createIdea.  The parameter now is the current time used
when createdAt is absent, and newId the identifier produced by the id
factory (randomUUID when no factory is given). -/
def createIdea (params : CreateIdeaParams) (now : Str) (newId : Str) : Idea :=
  let createdAt := params.createdAt.getD now
  let updatedAt := params.updatedAt.getD createdAt
  { id := newId
    title := params.title
    summary :=
      match params.summary with
      | none => none
      | some s => if (trim s).isEmpty then none else some (trim s)
    tags := params.tags.getD []
    isPinned := params.isPinned.getD false
    isArchived := params.isArchived.getD false
    features := params.features.getD []
    createdAt := createdAt
    updatedAt := updatedAt }

/-- Embedding of formatIdeaMarkdown.  The injectable date formatter is the
formatDate parameter; the source default formatAbsoluteDate is one possible
instantiation. -/
def formatIdeaMarkdown (idea : Idea) (formatDate : Str → Str) : Str :=
  let statusValue : Str :=
    if idea.isArchived then str "Archived"
    else if idea.isPinned then str "Pinned" else str "Active"
  let lines : List Str :=
    [str "# " ++ idea.title, []]
    ++ (match idea.summary with
        | some s => if s.isEmpty then [] else [s, []]
        | none => [])
    ++ [str "**Status:** " ++ statusValue, []]
    ++ (if idea.tags.length > 0
        then [str "**Tags:** " ++ joinSep (str ", ") idea.tags, []]
        else [])
    ++ [str "- Created: " ++ formatDate idea.createdAt]
    ++ [str "- Updated: " ++ formatDate idea.updatedAt, []]
    ++ (if idea.features.length ≠ 0
        then [str "## Features", []]
          ++ idea.features.map (fun feature => str "- " ++ feature.content)
        else [str "_No features captured yet._"])
  joinSep (str "\n") lines

/-- Embedding of formatIdeasMarkdown. -/
def formatIdeasMarkdown (ideas : List Idea) (formatDate : Str → Str) : Str :=
  if ideas.isEmpty then str "_No ideas captured yet._"
  else joinSep (str "\n\n---\n\n") (ideas.map (formatIdeaMarkdown · formatDate))

/-! ### Markdown import (ideas.ts, later variant) -/

structure MarkdownImportProject where
  title : Str
  features : List Str
deriving DecidableEq

/-- The bullet pattern of parseIdeasFromMarkdown: a dash or star followed by
optional whitespace and at least one further character; the captured group
is returned after the trim the source applies at the call site.  The
pattern matches exactly when the line starts with a marker and has at least
one character after it, and captured-then-trimmed equals the trim of the
remainder of the line. -/
def bulletContent (line : Str) : Option Str :=
  match line with
  | [] => none
  | c :: rest =>
    if (c = '-' || c = '*') && !rest.isEmpty then some (trim rest) else none

/-- The heading pattern of parseIdeasFromMarkdown: one or more hash marks,
optional whitespace, then at least one further character; the captured
group is returned after the trim the source applies at the call site.
Backtracking lets a line of two or more hash marks alone match with a
single hash mark as content. -/
def headingContent (line : Str) : Option Str :=
  let hashes := line.takeWhile (· = '#')
  let rest := line.dropWhile (· = '#')
  if hashes.isEmpty then none
  else if !rest.isEmpty then some (trim rest)
  else if 2 ≤ hashes.length then some (str "#")
  else none

/-- The mutable loop state of parseIdeasFromMarkdown. -/
structure ParseState where
  projects : List MarkdownImportProject
  currentTitle : Option Str
  currentFeatures : List Str
deriving DecidableEq

/-- Embedding of the pushCurrent closure: record the current project when a
truthy title is set, then reset the accumulators. -/
def pushCurrent (st : ParseState) : ParseState :=
  let projects :=
    match st.currentTitle with
    | some t =>
      if t.isEmpty then st.projects
      else st.projects
        ++ [⟨t, (st.currentFeatures.map trim).filter (fun f => !f.isEmpty)⟩]
    | none => st.projects
  ⟨projects, none, []⟩

/-- Embedding of the body of the line loop of parseIdeasFromMarkdown. -/
def parseStep (st : ParseState) (rawLine : Str) : ParseState :=
  let line := trim rawLine
  if line.isEmpty then pushCurrent st
  else
    match bulletContent line with
    | some content =>
      let title :=
        match st.currentTitle with
        | some t => if t.isEmpty then str "Untitled Project" else t
        | none => str "Untitled Project"
      { st with currentTitle := some title
                currentFeatures := st.currentFeatures ++ [content] }
    | none =>
      let potentialTitle := (headingContent line).getD line
      let flush :=
        (match st.currentTitle with
         | some t => !t.isEmpty
         | none => false) || st.currentFeatures.length > 0
      let st2 := if flush then pushCurrent st else st
      let newTitle :=
        if potentialTitle.isEmpty then str "Untitled Project" else potentialTitle
      { st2 with currentTitle := some newTitle }

/-- Embedding of parseIdeasFromMarkdown. -/
def parseIdeasFromMarkdown (markdown : Str) : List MarkdownImportProject :=
  let final := pushCurrent ((splitLines markdown).foldl parseStep ⟨[], none, []⟩)
  final.projects.filter
    (fun project =>
      decide (project.title.length > 0)
        && (decide (project.features.length > 0) || !project.title.isEmpty))

/-! ### Manager hook (use-ideas-manager.ts)

Embeds the operations of useIdeasManager as pure functions on the stored
array.  Stored records are modelled with every field present (the shape the
hook itself writes).  The notification side channel is the toast field of
the result; the awaited storage write always succeeds in the model, so the
catch branch of createProject is unreachable. -/

inductive ToastStyle where
  | success
  | failure
deriving DecidableEq

/-- The form values of the add and edit project forms. -/
structure ProjectFormValues where
  title : Str
  summary : Option Str := none
  tags : Option Str := none
  initialFeatures : Option Str := none

/-- Result of one manager operation: the stored array after the operation,
the toast shown (style and title), and the record the operation returns. -/
structure ManagerOut where
  state : List Idea
  toast : Option (ToastStyle × Str)
  returned : Option Idea
deriving DecidableEq

/-- The repeated update pattern of the hook: map over the stored array and
rewrite every record whose id matches. -/
def updateById (stored : List Idea) (projectId : Str) (f : Idea → Idea) :
    List Idea :=
  stored.map (fun item => if item.id = projectId then f item else item)

/-- Embedding of createProject. -/
def createProject (stored : List Idea) (values : ProjectFormValues)
    (now : Str) (projId : Str) (featIds : Nat → Str) : ManagerOut :=
  let title := trim values.title
  if title.isEmpty then
    ⟨stored, some (ToastStyle.failure, str "Project name is required"), none⟩
  else
    let tags := parseTagsInput values.tags
    let features := createFeaturesFromText values.initialFeatures now featIds
    let nextProject := createIdea
      { title := title, summary := values.summary, tags := some tags,
        features := some features, createdAt := some now,
        updatedAt := some now } now projId
    ⟨nextProject :: stored,
     some (ToastStyle.success, str "Project added"), some nextProject⟩

/-- Embedding of updateProject. -/
def updateProject (stored : List Idea) (projectId : Str)
    (values : ProjectFormValues) (now : Str) : ManagerOut :=
  let title := trim values.title
  if title.isEmpty then
    ⟨stored, some (ToastStyle.failure, str "Project name is required"), none⟩
  else
    let tags := parseTagsInput values.tags
    let updated := updateById stored projectId (fun project =>
      { project with
          title := title
          summary :=
            match values.summary with
            | none => none
            | some s => if (trim s).isEmpty then none else some (trim s)
          tags := tags
          updatedAt := now })
    ⟨updated, some (ToastStyle.success, str "Project updated"),
     updated.find? (fun project => project.id = projectId)⟩

/-- Embedding of appendFeature. -/
def appendFeature (stored : List Idea) (projectId : Str) (featureText : Str)
    (now : Str) (featIds : Nat → Str) : ManagerOut :=
  let trimmed := trim featureText
  if trimmed.isEmpty then
    ⟨stored, some (ToastStyle.failure, str "Feature text cannot be empty"), none⟩
  else
    match stored.find? (fun item => item.id = projectId) with
    | none => ⟨stored, some (ToastStyle.failure, str "Project not found"), none⟩
    | some project =>
      if project.isArchived then
        ⟨stored, some (ToastStyle.failure, str "Project is archived"), none⟩
      else
        let newFeatures := createFeaturesFromText (some trimmed) now featIds
        if newFeatures.isEmpty then ⟨stored, none, none⟩
        else
          let updatedProjects := updateById stored projectId (fun item =>
            { item with features := item.features ++ newFeatures,
                        updatedAt := now })
          ⟨updatedProjects, some (ToastStyle.success, str "Feature appended"),
           updatedProjects.find? (fun item => item.id = projectId)⟩

/-- Embedding of editFeatures. -/
def editFeatures (stored : List Idea) (projectId : Str)
    (featureBodies : List Str) (now : Str) (featIds : Nat → Str) : ManagerOut :=
  match stored.find? (fun item => item.id = projectId) with
  | none => ⟨stored, some (ToastStyle.failure, str "Project not found"), none⟩
  | some project =>
    if project.isArchived then
      ⟨stored, some (ToastStyle.failure, str "Project is archived"), none⟩
    else
      let updatedFeatures :=
        mergeFeatureBodies project.features featureBodies now featIds
      let hasChanges :=
        decide (updatedFeatures.length ≠ project.features.length)
          || jsAnyIdx (fun index feature =>
               match project.features[index]? with
               | some old => decide (old.content ≠ feature.content)
               | none => true) updatedFeatures
      let updatedProjects := updateById stored projectId (fun item =>
        { item with features := updatedFeatures,
                    updatedAt := if hasChanges then now else item.updatedAt })
      ⟨updatedProjects, some (ToastStyle.success, str "Features updated"),
       updatedProjects.find? (fun item => item.id = projectId)⟩

/-- Embedding of togglePin. -/
def togglePin (stored : List Idea) (projectId : Str) (pin : Bool)
    (now : Str) : ManagerOut :=
  let updated := updateById stored projectId (fun item =>
    { item with isPinned := pin
                isArchived := if pin then false else item.isArchived
                updatedAt := now })
  ⟨updated,
   some (ToastStyle.success,
     if pin then str "Project pinned" else str "Project unpinned"), none⟩

/-- Embedding of toggleArchive. -/
def toggleArchive (stored : List Idea) (projectId : Str) (archive : Bool)
    (now : Str) : ManagerOut :=
  let updated := updateById stored projectId (fun item =>
    { item with isArchived := archive
                isPinned := if archive then false else item.isPinned
                updatedAt := now })
  ⟨updated,
   some (ToastStyle.success,
     if archive then str "Project archived" else str "Project restored"), none⟩

/-- Embedding of deleteProject; confirmed is the answer of the confirmation
alert. -/
def deleteProject (stored : List Idea) (projectId : Str) (confirmed : Bool) :
    ManagerOut :=
  if !confirmed then ⟨stored, none, none⟩
  else
    ⟨stored.filter (fun item => item.id ≠ projectId),
     some (ToastStyle.success, str "Project deleted"), none⟩

/-! ### Specification-side line processing

The spec describes feature-text parsing as: split the block on line breaks,
trim each line, and keep the non-blank lines.  The source instead trims the
whole block before splitting; the lemmas below show both give the same
non-blank trimmed lines. -/

/-- The non-blank trimmed lines of a text block, splitting on the
CR-optional-then-LF pattern of the source. -/
def nonBlankLines (s : Str) : List Str :=
  ((splitLines s).map trim).filter (fun l => !l.isEmpty)

/-- The non-blank trimmed lines, splitting on plain newlines. -/
def nonBlankNl (s : Str) : List Str :=
  ((splitNl s).map trim).filter (fun l => !l.isEmpty)

theorem trimStart_cons_of_ws {c : Char} {l : Str} (h : ws c = true) :
    trimStart (c :: l) = trimStart l := by
  simp [trimStart, List.dropWhile_cons, h]

theorem trim_cons_of_ws {c : Char} {l : Str} (h : ws c = true) :
    trim (c :: l) = trim l := by
  simp [trim, trimStart_cons_of_ws h]

theorem trimEnd_eq_nil_iff {l : Str} : trimEnd l = [] ↔ ∀ c ∈ l, ws c = true := by
  simp [trimEnd, List.dropWhile_eq_nil_iff]

theorem trimStart_eq_nil_iff {l : Str} :
    trimStart l = [] ↔ ∀ c ∈ l, ws c = true :=
  List.dropWhile_eq_nil_iff

theorem trim_eq_nil_of_ws {l : Str} (h : ∀ c ∈ l, ws c = true) : trim l = [] := by
  rw [trim, trimStart_eq_nil_iff.mpr h]
  rfl

theorem trim_eq_nil_iff {l : Str} : trim l = [] ↔ ∀ c ∈ l, ws c = true := by
  constructor
  · intro h c hc
    rw [trim] at h
    have hws : ∀ c ∈ trimStart l, ws c = true := trimEnd_eq_nil_iff.mp h
    have hsplit : l.takeWhile ws ++ trimStart l = l :=
      List.takeWhile_append_dropWhile ws l
    rw [← hsplit] at hc
    rcases List.mem_append.mp hc with hc | hc
    · exact List.mem_takeWhile_imp hc
    · exact hws c hc
  · exact trim_eq_nil_of_ws

theorem trimEnd_append_ws {l w : Str} (hw : ∀ c ∈ w, ws c = true) :
    trimEnd (l ++ w) = trimEnd l := by
  have : ∀ c ∈ w.reverse, ws c = true := by
    intro c hc
    exact hw c (List.mem_reverse.mp hc)
  simp [trimEnd, List.reverse_append, List.dropWhile_append_of_pos this]

theorem trim_append_ws {l w : Str} (hw : ∀ c ∈ w, ws c = true) :
    trim (l ++ w) = trim l := by
  by_cases hl : trimStart l = []
  · have hlw : ∀ c ∈ l, ws c = true := trimStart_eq_nil_iff.mp hl
    have h1 : trimStart (l ++ w) = [] := by
      apply trimStart_eq_nil_iff.mpr
      intro c hc
      rcases List.mem_append.mp hc with hc | hc
      · exact hlw c hc
      · exact hw c hc
    rw [trim, trim, h1, hl]
  · have h1 : trimStart (l ++ w) = trimStart l ++ w := by
      rw [trimStart, trimStart] at *
      rw [List.dropWhile_append]
      simp [List.isEmpty_iff, hl]
    rw [trim, trim, h1, trimEnd_append_ws hw]

theorem exists_ws_suffix (s : Str) :
    ∃ w, s = trimEnd s ++ w ∧ ∀ c ∈ w, ws c = true := by
  refine ⟨(s.reverse.takeWhile ws).reverse, ?_, ?_⟩
  · rw [trimEnd, ← List.reverse_append, List.takeWhile_append_dropWhile,
      List.reverse_reverse]
  · intro c hc
    exact List.mem_takeWhile_imp (List.mem_reverse.mp hc)

theorem ws_head_trim {s : Str} {c : Char} {rest : Str}
    (h : trim s = c :: rest) : ws c = false := by
  have hne : trimEnd (trimStart s) ≠ [] := by
    rw [← trim]
    simp [h]
  obtain ⟨w, hw, -⟩ := exists_ws_suffix (trimStart s)
  have hh : (trimStart s).head? = some c := by
    rw [hw, List.head?_append_of_ne_nil _ hne, ← trim, h]
    rfl
  have := List.head?_dropWhile_not ws s
  rw [← trimStart, hh] at this
  exact this

/-! Splitting lemmas. -/

theorem splitOnChar_cons_sep (sep : Char) (cs : Str) :
    splitOnChar sep (sep :: cs) = [] :: splitOnChar sep cs := by
  simp [splitOnChar]

theorem splitOnChar_cons_ne {sep c : Char} {cs hd : Str} {tl : List Str}
    (h : ¬c = sep) (hs : splitOnChar sep cs = hd :: tl) :
    splitOnChar sep (c :: cs) = (c :: hd) :: tl := by
  simp [splitOnChar, h, hs]

/-- Join two segment lists at the boundary, as splitting a concatenation
does. -/
def glue : List Str → List Str → List Str
  | [], ys => ys
  | [x], [] => [x]
  | [x], y :: yt => (x ++ y) :: yt
  | x :: y :: xt, ys => x :: glue (y :: xt) ys

theorem splitOnChar_append (sep : Char) (a b : Str) :
    splitOnChar sep (a ++ b) = glue (splitOnChar sep a) (splitOnChar sep b) := by
  induction a with
  | nil =>
    obtain ⟨hd, tl, hb⟩ := List.exists_cons_of_ne_nil (splitOnChar_ne_nil sep b)
    simp [splitOnChar, hb, glue]
  | cons c cs ih =>
    by_cases hc : c = sep
    · subst hc
      rw [List.cons_append, splitOnChar_cons_sep, splitOnChar_cons_sep, ih]
      obtain ⟨hd, tl, ha⟩ := List.exists_cons_of_ne_nil (splitOnChar_ne_nil c cs)
      rw [ha]
      rfl
    · obtain ⟨hd, tl, ha⟩ := List.exists_cons_of_ne_nil (splitOnChar_ne_nil sep cs)
      obtain ⟨hb1, tb, hb⟩ := List.exists_cons_of_ne_nil (splitOnChar_ne_nil sep b)
      have hmid : splitOnChar sep (cs ++ b) = glue (hd :: tl) (hb1 :: tb) := by
        rw [ih, ha, hb]
      cases tl with
      | nil =>
        have hmid2 : splitOnChar sep (cs ++ b) = (hd ++ hb1) :: tb := by
          rw [hmid]; rfl
        rw [List.cons_append, splitOnChar_cons_ne hc hmid2,
          splitOnChar_cons_ne hc ha, hb]
        rfl
      | cons z zs =>
        have hmid2 : splitOnChar sep (cs ++ b) =
            hd :: glue (z :: zs) (hb1 :: tb) := by
          rw [hmid]; rfl
        rw [List.cons_append, splitOnChar_cons_ne hc hmid2,
          splitOnChar_cons_ne hc ha, hb]
        rfl

theorem mem_splitOnChar_ws {sep : Char} {s : Str} (hs : ∀ c ∈ s, ws c = true) :
    ∀ l ∈ splitOnChar sep s, ∀ c ∈ l, ws c = true := by
  induction s with
  | nil =>
    intro l hl
    simp [splitOnChar] at hl
    simp [hl]
  | cons c cs ih =>
    have hc : ws c = true := hs c (List.mem_cons_self c cs)
    have hcs : ∀ x ∈ cs, ws x = true := fun x hx => hs x (List.mem_cons_of_mem c hx)
    by_cases hsep : c = sep
    · subst hsep
      rw [splitOnChar_cons_sep]
      intro l hl
      rcases List.mem_cons.mp hl with hl | hl
      · simp [hl]
      · exact ih hcs l hl
    · obtain ⟨hd, tl, ha⟩ := List.exists_cons_of_ne_nil (splitOnChar_ne_nil sep cs)
      rw [splitOnChar_cons_ne hsep ha]
      intro l hl
      rcases List.mem_cons.mp hl with hl | hl
      · subst hl
        intro x hx
        rcases List.mem_cons.mp hx with hx | hx
        · subst hx; exact hc
        · exact ih hcs hd (ha ▸ List.mem_cons_self hd tl) x hx
      · exact ih hcs l (ha ▸ List.mem_cons_of_mem hd hl)

theorem nonBlankNl_nil : nonBlankNl [] = [] := rfl

theorem nonBlankNl_eq_nil_of_ws {s : Str} (hs : ∀ c ∈ s, ws c = true) :
    nonBlankNl s = [] := by
  apply List.filter_eq_nil_iff.mpr
  intro l hl
  obtain ⟨l0, hl0, rfl⟩ := List.mem_map.mp hl
  have : trim l0 = [] :=
    trim_eq_nil_of_ws (mem_splitOnChar_ws hs l0 hl0)
  simp [this]

theorem nonBlankNl_cons_ws {c : Char} {s : Str} (h : ws c = true) :
    nonBlankNl (c :: s) = nonBlankNl s := by
  by_cases hc : c = '\n'
  · subst hc
    rw [nonBlankNl, nonBlankNl, splitNl, splitOnChar_cons_sep]
    rfl
  · obtain ⟨hd, tl, ha⟩ := List.exists_cons_of_ne_nil (splitNl_ne_nil s)
    rw [nonBlankNl, nonBlankNl, splitNl, splitOnChar_cons_ne hc ha, ha,
      List.map_cons, List.map_cons, trim_cons_of_ws h]

theorem nonBlankNl_trimStart (s : Str) :
    nonBlankNl (trimStart s) = nonBlankNl s := by
  induction s with
  | nil => rfl
  | cons c cs ih =>
    by_cases h : ws c = true
    · rw [trimStart_cons_of_ws h, ih, nonBlankNl_cons_ws h]
    · rw [trimStart, List.dropWhile_cons]
      simp only [h]
      rfl

theorem filter_map_trim_glue_ws {xs : List Str} {w : Str} (hxs : xs ≠ [])
    (hw : ∀ c ∈ w, ws c = true) :
    ((glue xs (splitNl w)).map trim).filter (fun l => !l.isEmpty)
      = (xs.map trim).filter (fun l => !l.isEmpty) := by
  induction xs with
  | nil => exact absurd rfl hxs
  | cons x xt ih =>
    cases xt with
    | nil =>
      obtain ⟨hw1, tw, hwsplit⟩ :=
        List.exists_cons_of_ne_nil (splitNl_ne_nil w)
      have hlines : ∀ l ∈ splitNl w, ∀ c ∈ l, ws c = true :=
        mem_splitOnChar_ws hw
      have hhw1 : ∀ c ∈ hw1, ws c = true :=
        hlines hw1 (hwsplit ▸ List.mem_cons_self hw1 tw)
      have htw : ((tw.map trim).filter (fun l => !l.isEmpty)) = [] := by
        apply List.filter_eq_nil_iff.mpr
        intro l hl
        obtain ⟨l0, hl0, rfl⟩ := List.mem_map.mp hl
        have hl0m : l0 ∈ splitNl w := hwsplit ▸ List.mem_cons_of_mem hw1 hl0
        simp [trim_eq_nil_of_ws (hlines l0 hl0m)]
      have hx : trim (x ++ hw1) = trim x := trim_append_ws hhw1
      rw [hwsplit]
      show ((((x ++ hw1) :: tw).map trim).filter (fun l => !l.isEmpty))
        = (([x].map trim).filter (fun l => !l.isEmpty))
      rw [List.map_cons, List.map_cons, List.map_nil, List.filter_cons,
        List.filter_cons, htw, hx]
      split <;> simp
    | cons y yt =>
      have hyt : (y :: yt) ≠ [] := by simp
      show ((x :: glue (y :: yt) (splitNl w)).map trim).filter
            (fun l => !l.isEmpty)
          = ((x :: y :: yt).map trim).filter (fun l => !l.isEmpty)
      rw [List.map_cons, List.filter_cons, ih hyt]
      simp [List.filter_cons]

theorem nonBlankNl_append_ws {u w : Str} (hw : ∀ c ∈ w, ws c = true) :
    nonBlankNl (u ++ w) = nonBlankNl u := by
  rw [nonBlankNl, nonBlankNl, splitNl, splitOnChar_append]
  exact filter_map_trim_glue_ws (splitNl_ne_nil u) hw

theorem nonBlankNl_trimEnd (s : Str) : nonBlankNl (trimEnd s) = nonBlankNl s := by
  obtain ⟨w, hs, hw⟩ := exists_ws_suffix s
  conv_rhs => rw [hs]
  rw [nonBlankNl_append_ws hw]

theorem nonBlankNl_trim (s : Str) : nonBlankNl (trim s) = nonBlankNl s := by
  rw [trim, nonBlankNl_trimEnd, nonBlankNl_trimStart]

/-! Relating CR-aware line splitting to plain newline splitting. -/

theorem trim_stripCR (l : Str) : trim (stripCR l) = trim l := by
  rw [stripCR]
  by_cases h : l.getLast? = some '\r'
  · have hdecomp : l.dropLast ++ ['\r'] = l :=
      List.dropLast_append_getLast? '\r' h
    rw [if_pos h]
    conv_rhs => rw [← hdecomp]
    rw [trim_append_ws]
    intro c hc
    simp at hc
    subst hc
    decide
  · simp [h]

theorem map_trim_mapExceptLast_stripCR (xs : List Str) :
    (mapExceptLast stripCR xs).map trim = xs.map trim := by
  induction xs with
  | nil => rfl
  | cons x xt ih =>
    cases xt with
    | nil => rfl
    | cons y yt =>
      show trim (stripCR x) :: (mapExceptLast stripCR (y :: yt)).map trim
        = trim x :: (y :: yt).map trim
      rw [trim_stripCR, ih]

theorem nonBlankLines_eq_nonBlankNl (s : Str) : nonBlankLines s = nonBlankNl s := by
  rw [nonBlankLines, nonBlankNl, splitLines, map_trim_mapExceptLast_stripCR]

theorem nonBlankLines_trim (s : Str) : nonBlankLines (trim s) = nonBlankLines s := by
  rw [nonBlankLines_eq_nonBlankNl, nonBlankLines_eq_nonBlankNl, nonBlankNl_trim]

theorem nonBlankLines_ne_nil {s : Str} (h : trim s ≠ []) :
    nonBlankLines s ≠ [] := by
  rw [← nonBlankLines_trim, nonBlankLines_eq_nonBlankNl]
  obtain ⟨c, rest, hu⟩ := List.exists_cons_of_ne_nil h
  have hcws : ws c = false := ws_head_trim hu
  have hcnl : ¬c = '\n' := by
    intro hc
    subst hc
    simp [ws] at hcws
  rw [hu]
  obtain ⟨hd, tl, ha⟩ := List.exists_cons_of_ne_nil (splitNl_ne_nil rest)
  rw [nonBlankNl, splitNl, splitOnChar_cons_ne hcnl ha, List.map_cons,
    List.filter_cons]
  have htrim : trim (c :: hd) ≠ [] := by
    intro hc
    have := trim_eq_nil_iff.mp hc c (List.mem_cons_self c hd)
    rw [hcws] at this
    exact Bool.noConfusion this
  simp [htrim]

/-- The source trims the whole block first; the spec splits the raw block.
Both produce the same features. -/
theorem createFeaturesFromText_some (b ts : Str) (fid : Nat → Str) :
    createFeaturesFromText (some b) ts fid
      = jsMapIdx (fun i content => ⟨fid i, content, ts⟩) (nonBlankLines b) := by
  rw [createFeaturesFromText]
  by_cases h : (trim b).isEmpty = true
  · have hnil : trim b = [] := List.isEmpty_iff.mp h
    have hb : nonBlankLines b = [] := by
      rw [← nonBlankLines_trim, hnil]
      rfl
    simp only [h, if_true, hb]
    rfl
  · simp only [h, Bool.false_eq_true, if_false]
    rw [show ((splitLines (trim b)).map trim).filter (fun l => !l.isEmpty)
        = nonBlankLines (trim b) from rfl, nonBlankLines_trim]

/-! Index-aware map lemmas. -/

theorem mapIdxFrom_length {α β : Type} (f : Nat → α → β) (i : Nat)
    (l : List α) : (mapIdxFrom f i l).length = l.length := by
  induction l generalizing i with
  | nil => rfl
  | cons a as ih =>
    show (mapIdxFrom f i (a :: as)).length = as.length + 1
    rw [mapIdxFrom]
    simp [ih]

theorem mapIdxFrom_getElem? {α β : Type} (f : Nat → α → β) (i j : Nat)
    (l : List α) : (mapIdxFrom f i l)[j]? = (l[j]?).map (f (i + j)) := by
  induction l generalizing i j with
  | nil => simp [mapIdxFrom]
  | cons a as ih =>
    cases j with
    | zero => simp [mapIdxFrom]
    | succ k =>
      rw [mapIdxFrom, List.getElem?_cons_succ, List.getElem?_cons_succ,
        ih (i + 1) k, show i + 1 + k = i + (k + 1) from by omega]

theorem jsMapIdx_length {α β : Type} (f : Nat → α → β) (l : List α) :
    (jsMapIdx f l).length = l.length := mapIdxFrom_length f 0 l

theorem jsMapIdx_getElem? {α β : Type} (f : Nat → α → β) (j : Nat)
    (l : List α) : (jsMapIdx f l)[j]? = (l[j]?).map (f j) := by
  rw [jsMapIdx, mapIdxFrom_getElem?, Nat.zero_add]

/-! Lemmas about the by-id update pattern of the manager. -/

theorem updateById_of_none {stored : List Idea} {projectId : Str}
    (f : Idea → Idea) (h : ∀ q ∈ stored, ¬q.id = projectId) :
    updateById stored projectId f = stored := by
  induction stored with
  | nil => rfl
  | cons p ps ih =>
    have hp : ¬p.id = projectId := h p (List.mem_cons_self p ps)
    show (if p.id = projectId then f p else p) :: updateById ps projectId f
      = p :: ps
    rw [if_neg hp, ih fun q hq => h q (List.mem_cons_of_mem p hq)]

theorem updateById_decomp {pre post : List Idea} {p : Idea} {projectId : Str}
    (f : Idea → Idea) (hp : p.id = projectId)
    (hpre : ∀ q ∈ pre, ¬q.id = projectId)
    (hpost : ∀ q ∈ post, ¬q.id = projectId) :
    updateById (pre ++ p :: post) projectId f = pre ++ f p :: post := by
  rw [updateById, List.map_append, List.map_cons, if_pos hp]
  rw [← updateById, updateById_of_none f hpre, ← updateById,
    updateById_of_none f hpost]

theorem find?_decomp {stored : List Idea} {projectId : Str} {p : Idea}
    (h : stored.find? (fun item => item.id = projectId) = some p) :
    p.id = projectId
      ∧ ∃ pre post, stored = pre ++ p :: post
          ∧ ∀ q ∈ pre, ¬q.id = projectId := by
  rw [List.find?_eq_some] at h
  obtain ⟨hp, pre, post, hsplit, hpre⟩ := h
  refine ⟨by simpa using hp, pre, post, hsplit, ?_⟩
  intro q hq
  have := hpre q hq
  simpa using this

theorem map_content_mapIdxFrom (ts : Str) (fid : Nat → Str) (i : Nat)
    (lines : List Str) :
    (mapIdxFrom (fun i content => (⟨fid i, content, ts⟩ : IdeaFeature)) i
      lines).map IdeaFeature.content = lines := by
  induction lines generalizing i with
  | nil => rfl
  | cons l ls ih =>
    show IdeaFeature.content ⟨fid i, l, ts⟩ :: _ = l :: ls
    rw [ih (i + 1)]

/-! ### Claim C6 -/

/-- Claim C6: createFeaturesFromText splits the block on line breaks, trims
each line, discards lines that are empty after trimming, and returns one
feature per remaining line in the original line order, each taking the next
fresh identifier from the factory and all sharing the one timestamp; for
input that is undefined, empty, or whitespace-only it returns the empty
list. -/
theorem claim6_createFeaturesFromText (b ts : Str) (fid : Nat → Str) :
    createFeaturesFromText none ts fid = []
      ∧ createFeaturesFromText (some b) ts fid
          = jsMapIdx (fun i content => ⟨fid i, content, ts⟩) (nonBlankLines b)
      ∧ (createFeaturesFromText (some b) ts fid).map IdeaFeature.content
          = nonBlankLines b
      ∧ (trim b = [] → createFeaturesFromText (some b) ts fid = []) := by
  refine ⟨rfl, createFeaturesFromText_some b ts fid, ?_, ?_⟩
  · rw [createFeaturesFromText_some b ts fid, jsMapIdx, map_content_mapIdxFrom]
  · intro h
    rw [createFeaturesFromText_some b ts fid, ← nonBlankLines_trim, h]
    rfl

theorem claim6_witness :
    trim (str "   ") = []
      ∧ createFeaturesFromText (some (str "   ")) (str "t0")
          (fun _ => str "f") = [] :=
  ⟨by decide,
   (claim6_createFeaturesFromText (str "   ") (str "t0")
      (fun _ => str "f")).2.2.2 (by decide)⟩

/-! ### Claim C9 -/

/-- Claim C9: the createIdea factory returns an idea whose summary is
undefined whenever the given summary is absent or trims to the empty string
and the trimmed summary otherwise, whose tags and features default to the
empty list when not supplied, whose isPinned and isArchived flags default
to false, and whose updatedAt defaults to its createdAt. -/
theorem claim9_createIdea (params : CreateIdeaParams) (now newId : Str) :
    (params.summary = none → (createIdea params now newId).summary = none)
      ∧ (∀ s, params.summary = some s → trim s = [] →
          (createIdea params now newId).summary = none)
      ∧ (∀ s, params.summary = some s → trim s ≠ [] →
          (createIdea params now newId).summary = some (trim s))
      ∧ (params.tags = none → (createIdea params now newId).tags = [])
      ∧ (params.features = none → (createIdea params now newId).features = [])
      ∧ (params.isPinned = none → (createIdea params now newId).isPinned = false)
      ∧ (params.isArchived = none →
          (createIdea params now newId).isArchived = false)
      ∧ (params.updatedAt = none →
          (createIdea params now newId).updatedAt
            = (createIdea params now newId).createdAt) := by
  refine ⟨?_, ?_, ?_, ?_, ?_, ?_, ?_, ?_⟩
  · intro h; simp [createIdea, h]
  · intro s hs h; simp [createIdea, hs, h]
  · intro s hs h
    simp only [createIdea, hs]
    rw [if_neg (by simpa [List.isEmpty_iff] using h)]
  · intro h; simp [createIdea, h]
  · intro h; simp [createIdea, h]
  · intro h; simp [createIdea, h]
  · intro h; simp [createIdea, h]
  · intro h; simp [createIdea, h]

theorem claim9_witness :
    ({ title := str "Launch App", summary := some (str "  Build MVP  ")
       : CreateIdeaParams }).summary = some (str "  Build MVP  ")
      ∧ trim (str "  Build MVP  ") ≠ []
      ∧ (createIdea
          { title := str "Launch App", summary := some (str "  Build MVP  ") }
          (str "t0") (str "id0")).summary = some (trim (str "  Build MVP  ")) :=
  ⟨rfl, by decide,
   (claim9_createIdea
      { title := str "Launch App", summary := some (str "  Build MVP  ") }
      (str "t0") (str "id0")).2.2.1 (str "  Build MVP  ") rfl (by decide)⟩

/-! ### Claim C4 -/

/-- Claim C4: mergeFeatureBodies first drops bodies that are empty after
trimming; for each remaining position, if an existing feature occupies that
index the result keeps its identifier and creation time with the content
replaced by the trimmed body, and otherwise the result is a new feature
with a fresh identifier and the shared current timestamp; existing features
beyond the number of remaining bodies are dropped (the result has exactly
one entry per remaining body). -/
theorem claim4_mergeFeatureBodies (existing : List IdeaFeature)
    (bodies : List Str) (ts : Str) (fid : Nat → Str) :
    (mergeFeatureBodies existing bodies ts fid).length
        = ((bodies.map trim).filter (fun l => !l.isEmpty)).length
      ∧ ∀ (i : Nat) (b : Str),
          ((bodies.map trim).filter (fun l => !l.isEmpty))[i]? = some b →
          (∀ ex : IdeaFeature, existing[i]? = some ex →
            (mergeFeatureBodies existing bodies ts fid)[i]?
              = some (⟨ex.id, b, ex.createdAt⟩ : IdeaFeature))
          ∧ (existing[i]? = none →
            (mergeFeatureBodies existing bodies ts fid)[i]?
              = some (⟨fid (i - existing.length), b, ts⟩ : IdeaFeature)) := by
  constructor
  · rw [mergeFeatureBodies]
    by_cases h : ((bodies.map trim).filter (fun l => !l.isEmpty)).isEmpty = true
    · rw [if_pos h, List.isEmpty_iff.mp h]
      rfl
    · rw [if_neg h]
      exact jsMapIdx_length _ _
  · intro i b hb
    have hne : ¬((bodies.map trim).filter (fun l => !l.isEmpty)).isEmpty = true := by
      intro h
      rw [List.isEmpty_iff.mp h] at hb
      simp at hb
    have hres : mergeFeatureBodies existing bodies ts fid
        = jsMapIdx
            (fun i content =>
              match existing[i]? with
              | some ex => { ex with content := content }
              | none => ⟨fid (i - existing.length), content, ts⟩)
            ((bodies.map trim).filter (fun l => !l.isEmpty)) := by
      rw [mergeFeatureBodies, if_neg hne]
    constructor
    · intro ex hex
      rw [hres, jsMapIdx_getElem?, hb]
      simp [hex]
    · intro hex
      rw [hres, jsMapIdx_getElem?, hb]
      simp [hex]

theorem claim4_witness :
    ((([str " x ", str "  ", str "y"].map trim).filter
        (fun l => !l.isEmpty))[1]? = some (str "y"))
      ∧ ([(⟨str "a1", str "old", str "t0"⟩ : IdeaFeature)][0]?
          = some (⟨str "a1", str "old", str "t0"⟩ : IdeaFeature))
      ∧ (mergeFeatureBodies [⟨str "a1", str "old", str "t0"⟩]
          [str " x ", str "  ", str "y"] (str "t1") (fun _ => str "n"))[1]?
          = some ⟨str "n", str "y", str "t1"⟩ := by
  refine ⟨by decide, by decide, ?_⟩
  have h := (claim4_mergeFeatureBodies [⟨str "a1", str "old", str "t0"⟩]
    [str " x ", str "  ", str "y"] (str "t1") (fun _ => str "n")).2 1 (str "y")
    (by decide)
  exact h.2 (by decide)

/-! ### Claim C1 -/

theorem find?_of_decomp {pre : List Idea} (post : List Idea) {p : Idea}
    {projectId : Str} (hp : p.id = projectId)
    (hpre : ∀ q ∈ pre, ¬q.id = projectId) :
    (pre ++ p :: post).find? (fun item => item.id = projectId) = some p := by
  induction pre with
  | nil =>
    rw [List.nil_append]
    exact List.find?_cons_of_pos post (by simpa using hp)
  | cons q qs ih =>
    rw [List.cons_append,
      List.find?_cons_of_neg _ (by simpa using hpre q (List.mem_cons_self q qs))]
    exact ih fun r hr => hpre r (List.mem_cons_of_mem q hr)

/-- A sample non-archived project used by concrete instantiations. -/
def pIdea : Idea :=
  ⟨str "p1", str "Docs Overhaul", none, [], false, false, [], str "t0", str "t0"⟩

/-- Claim C1 fails as stated: the feature text joining two lines is
non-empty after trimming and the target project exists and is not
archived, yet appendFeature appends two features, not exactly one. -/
theorem claim1_counterexample :
    trim (str "a\nb") ≠ []
      ∧ pIdea.isArchived = false
      ∧ (appendFeature [pIdea] (str "p1") (str "a\nb") (str "t1")
          (fun _ => str "f")).state.map (fun q => q.features.length) = [2]
      ∧ ¬(appendFeature [pIdea] (str "p1") (str "a\nb") (str "t1")
          (fun _ => str "f")).state.map (fun q => q.features.length) = [1] := by
  refine ⟨by decide, by decide, by decide, by decide⟩

/-- Claim C1 (amended): for every stored array and every feature text that
is non-empty after trimming, when the target project exists (decomposed as
pre, target, post with no earlier match): if the target is archived the
operation reports failure and the stored array is unchanged; if it is not
archived the operation appends one new feature per non-blank line of the
text (at least one; exactly one when the text has a single non-blank line)
to that target, sets its updatedAt to the operation timestamp, leaves all
other features and projects unchanged, and reports success. -/
theorem claim1_appendFeature (pre post : List Idea) (p : Idea)
    (projectId text now : Str) (fid : Nat → Str)
    (hp : p.id = projectId)
    (hpre : ∀ q ∈ pre, ¬q.id = projectId)
    (hpost : ∀ q ∈ post, ¬q.id = projectId)
    (htext : trim text ≠ []) :
    (p.isArchived = true →
      appendFeature (pre ++ p :: post) projectId text now fid
        = ⟨pre ++ p :: post,
           some (ToastStyle.failure, str "Project is archived"), none⟩)
      ∧ (p.isArchived = false →
          jsMapIdx (fun i c => (⟨fid i, c, now⟩ : IdeaFeature))
              (nonBlankLines text) ≠ []
            ∧ (jsMapIdx (fun i c => (⟨fid i, c, now⟩ : IdeaFeature))
                (nonBlankLines text)).length = (nonBlankLines text).length
            ∧ appendFeature (pre ++ p :: post) projectId text now fid
              = ⟨pre
                  ++ { p with
                        features := p.features
                          ++ jsMapIdx (fun i c => (⟨fid i, c, now⟩ : IdeaFeature))
                              (nonBlankLines text),
                        updatedAt := now } :: post,
                 some (ToastStyle.success, str "Feature appended"),
                 some { p with
                        features := p.features
                          ++ jsMapIdx (fun i c => (⟨fid i, c, now⟩ : IdeaFeature))
                              (nonBlankLines text),
                        updatedAt := now }⟩) := by
  have htrimmedNe : ¬(trim text).isEmpty = true := by
    simpa [List.isEmpty_iff] using htext
  have hfind : (pre ++ p :: post).find? (fun item => item.id = projectId)
      = some p := find?_of_decomp post hp hpre
  have hfeat : createFeaturesFromText (some (trim text)) now fid
      = jsMapIdx (fun i c => (⟨fid i, c, now⟩ : IdeaFeature))
          (nonBlankLines text) := by
    rw [createFeaturesFromText_some, nonBlankLines_trim]
  have hFne : jsMapIdx (fun i c => (⟨fid i, c, now⟩ : IdeaFeature))
      (nonBlankLines text) ≠ [] := by
    intro h
    have hlen := jsMapIdx_length
      (fun i c => (⟨fid i, c, now⟩ : IdeaFeature)) (nonBlankLines text)
    rw [h] at hlen
    exact nonBlankLines_ne_nil htext (List.eq_nil_of_length_eq_zero hlen.symm)
  constructor
  · intro harch
    simp only [appendFeature, hfind, htrimmedNe, Bool.false_eq_true, if_false,
      harch, if_true]
  · intro harch
    refine ⟨hFne, jsMapIdx_length _ _, ?_⟩
    have hupd : updateById (pre ++ p :: post) projectId
        (fun item =>
          { item with
              features := item.features
                ++ createFeaturesFromText (some (trim text)) now fid,
              updatedAt := now })
        = pre
          ++ { p with
                features := p.features
                  ++ jsMapIdx (fun i c => (⟨fid i, c, now⟩ : IdeaFeature))
                      (nonBlankLines text),
                updatedAt := now } :: post := by
      rw [updateById_decomp _ hp hpre hpost, hfeat]
    have hfind2 : (pre
          ++ { p with
                features := p.features
                  ++ jsMapIdx (fun i c => (⟨fid i, c, now⟩ : IdeaFeature))
                      (nonBlankLines text),
                updatedAt := now } :: post).find?
          (fun item => item.id = projectId)
        = some { p with
                features := p.features
                  ++ jsMapIdx (fun i c => (⟨fid i, c, now⟩ : IdeaFeature))
                      (nonBlankLines text),
                updatedAt := now } :=
      find?_of_decomp post hp hpre
    have hC : ¬(createFeaturesFromText (some (trim text)) now fid).isEmpty
        = true := by
      rw [hfeat]
      simpa [List.isEmpty_iff] using hFne
    simp only [appendFeature, hfind]
    rw [if_neg htrimmedNe, if_neg (show ¬p.isArchived = true by simp [harch]),
      if_neg hC, hupd, hfind2]

theorem claim1_witness :
    pIdea.id = str "p1"
      ∧ trim (str " Rewrite onboarding ") ≠ []
      ∧ pIdea.isArchived = false
      ∧ (appendFeature [pIdea] (str "p1") (str " Rewrite onboarding ")
          (str "t1") (fun _ => str "f")).state
        = [{ pIdea with
              features := [⟨str "f", str "Rewrite onboarding", str "t1"⟩],
              updatedAt := str "t1" }] := by
  have h := (claim1_appendFeature [] [] pIdea (str "p1")
    (str " Rewrite onboarding ") (str "t1") (fun _ => str "f") (by decide)
    (by simp) (by simp) (by decide)).2 (by decide)
  refine ⟨by decide, by decide, by decide, ?_⟩
  rw [show ([pIdea] : List Idea) = [] ++ pIdea :: [] from rfl, h.2.2]
  decide

/-! ### Claim C10 -/

/-- Claim C10: for an existing non-archived target project and a submitted
feature-body list whose entries all trim to the empty string,
mergeFeatureBodies returns the empty list, and editFeatures replaces the
entire feature list of the target with the empty list, writes the array
back, and reports success rather than rejecting the empty input (the
updatedAt of the target is refreshed exactly when it had features to
erase). -/
theorem claim10_editFeatures_blank (pre post : List Idea) (p : Idea)
    (projectId now : Str) (bodies : List Str) (fid : Nat → Str)
    (hp : p.id = projectId)
    (hpre : ∀ q ∈ pre, ¬q.id = projectId)
    (hpost : ∀ q ∈ post, ¬q.id = projectId)
    (harch : p.isArchived = false)
    (hbodies : ∀ b ∈ bodies, trim b = []) :
    mergeFeatureBodies p.features bodies now fid = []
      ∧ editFeatures (pre ++ p :: post) projectId bodies now fid
        = ⟨pre
            ++ { p with
                  features := [],
                  updatedAt := if p.features = [] then p.updatedAt else now }
              :: post,
           some (ToastStyle.success, str "Features updated"),
           some { p with
                  features := [],
                  updatedAt := if p.features = [] then p.updatedAt else now }⟩ := by
  have hkept : (bodies.map trim).filter (fun l => !l.isEmpty) = [] := by
    apply List.filter_eq_nil_iff.mpr
    intro l hl
    obtain ⟨b, hb, rfl⟩ := List.mem_map.mp hl
    simp [hbodies b hb]
  have hmerge : mergeFeatureBodies p.features bodies now fid = [] := by
    rw [mergeFeatureBodies, hkept]
    rfl
  refine ⟨hmerge, ?_⟩
  have hfind : (pre ++ p :: post).find? (fun item => item.id = projectId)
      = some p := find?_of_decomp post hp hpre
  have hchange :
      (decide (([] : List IdeaFeature).length ≠ p.features.length)
        || jsAnyIdx (fun index feature =>
             match p.features[index]? with
             | some old => decide (old.content ≠ feature.content)
             | none => true) ([] : List IdeaFeature))
      = !p.features.isEmpty := by
    cases hf : p.features with
    | nil => simp [jsAnyIdx, anyIdxFrom]
    | cons a as => simp [jsAnyIdx, anyIdxFrom]
  have hupdAt : (if (!p.features.isEmpty) = true then now else p.updatedAt)
      = if p.features = [] then p.updatedAt else now := by
    cases hf : p.features with
    | nil => simp
    | cons a as => simp
  have hupd : updateById (pre ++ p :: post) projectId
      (fun item =>
        { item with
            features := ([] : List IdeaFeature),
            updatedAt := if (!p.features.isEmpty) = true then now
              else item.updatedAt })
      = pre
        ++ { p with
              features := [],
              updatedAt := if p.features = [] then p.updatedAt else now }
          :: post := by
    rw [updateById_decomp _ hp hpre hpost]
    rw [show ({ p with
          features := ([] : List IdeaFeature),
          updatedAt := if (!p.features.isEmpty) = true then now
            else p.updatedAt } : Idea)
        = { p with
              features := [],
              updatedAt := if p.features = [] then p.updatedAt else now }
      from by rw [hupdAt]]
  have hfind2 : (pre
        ++ { p with
              features := ([] : List IdeaFeature),
              updatedAt := if p.features = [] then p.updatedAt else now }
          :: post).find? (fun item => item.id = projectId)
      = some { p with
              features := ([] : List IdeaFeature),
              updatedAt := if p.features = [] then p.updatedAt else now } :=
    find?_of_decomp post hp hpre
  simp only [editFeatures, hfind, hmerge, hchange]
  rw [if_neg (show ¬p.isArchived = true by simp [harch]), hupd, hfind2]

/-- A sample project with one captured feature. -/
def pFeat : Idea :=
  { pIdea with features := [⟨str "f1", str "Realtime sync", str "t0"⟩] }

theorem claim10_witness :
    pFeat.id = str "p1"
      ∧ pFeat.isArchived = false
      ∧ (∀ b ∈ [str "  ", str ""], trim b = [])
      ∧ editFeatures [pFeat] (str "p1") [str "  ", str ""] (str "t1")
          (fun _ => str "n")
        = ⟨[{ pFeat with features := [], updatedAt := str "t1" }],
           some (ToastStyle.success, str "Features updated"),
           some { pFeat with features := [], updatedAt := str "t1" }⟩ := by
  have h := (claim10_editFeatures_blank [] [] pFeat (str "p1") (str "t1")
    [str "  ", str ""] (fun _ => str "n") (by decide) (by simp) (by simp)
    (by decide) (by decide)).2
  refine ⟨by decide, by decide, by decide, ?_⟩
  rw [show ([pFeat] : List Idea) = [] ++ pFeat :: [] from rfl, h]
  decide

/-! ### Claim C5 -/

/-- No stored project carries both the pinned and the archived flag. -/
def mutexInv (stored : List Idea) : Prop :=
  ∀ q ∈ stored, ¬(q.isPinned = true ∧ q.isArchived = true)

theorem mem_updateById {stored : List Idea} {projectId : Str} {f : Idea → Idea}
    {q : Idea} (hq : q ∈ updateById stored projectId f) :
    ∃ orig ∈ stored, q = if orig.id = projectId then f orig else orig := by
  obtain ⟨orig, ho, he⟩ := List.mem_map.mp hq
  exact ⟨orig, ho, he.symm⟩

theorem mem_updateById_target {stored : List Idea} {projectId : Str}
    {f : Idea → Idea} {q : Idea}
    (hq : q ∈ updateById stored projectId f) (hid : q.id = projectId) :
    ∃ orig ∈ stored, orig.id = projectId ∧ q = f orig := by
  obtain ⟨orig, ho, he⟩ := mem_updateById hq
  by_cases h : orig.id = projectId
  · exact ⟨orig, ho, h, by rw [he, if_pos h]⟩
  · rw [he, if_neg h] at hid
    exact absurd hid h

theorem mutexInv_updateById {stored : List Idea} {projectId : Str}
    {f : Idea → Idea} (h : mutexInv stored)
    (hf : ∀ q, ¬(q.isPinned = true ∧ q.isArchived = true) →
      ¬((f q).isPinned = true ∧ (f q).isArchived = true)) :
    mutexInv (updateById stored projectId f) := by
  intro q hq
  obtain ⟨orig, ho, he⟩ := mem_updateById hq
  by_cases hid : orig.id = projectId
  · rw [he, if_pos hid]
    exact hf orig (h orig ho)
  · rw [he, if_neg hid]
    exact h orig ho

/-- Claim C5: pinning a project sets isPinned and clears isArchived,
archiving sets isArchived and clears isPinned, toggling either flag sets
the updatedAt of the target to the operation timestamp, and every manager
operation preserves the invariant that no stored project has both flags
set. -/
theorem claim5_pin_archive_exclusive (stored : List Idea)
    (projectId now : Str) (hinv : mutexInv stored) :
    (∀ q ∈ (togglePin stored projectId true now).state, q.id = projectId →
        q.isPinned = true ∧ q.isArchived = false ∧ q.updatedAt = now)
      ∧ (∀ q ∈ (toggleArchive stored projectId true now).state,
          q.id = projectId →
            q.isArchived = true ∧ q.isPinned = false ∧ q.updatedAt = now)
      ∧ (∀ (pin : Bool), ∀ q ∈ (togglePin stored projectId pin now).state,
          q.id = projectId → q.updatedAt = now)
      ∧ (∀ (archive : Bool),
          ∀ q ∈ (toggleArchive stored projectId archive now).state,
            q.id = projectId → q.updatedAt = now)
      ∧ (∀ (pin : Bool), mutexInv (togglePin stored projectId pin now).state)
      ∧ (∀ (archive : Bool),
          mutexInv (toggleArchive stored projectId archive now).state)
      ∧ (∀ (values : ProjectFormValues) (projId : Str) (featIds : Nat → Str),
          mutexInv (createProject stored values now projId featIds).state)
      ∧ (∀ (values : ProjectFormValues),
          mutexInv (updateProject stored projectId values now).state)
      ∧ (∀ (text : Str) (featIds : Nat → Str),
          mutexInv (appendFeature stored projectId text now featIds).state)
      ∧ (∀ (bodies : List Str) (featIds : Nat → Str),
          mutexInv (editFeatures stored projectId bodies now featIds).state)
      ∧ (∀ (confirmed : Bool),
          mutexInv (deleteProject stored projectId confirmed).state) := by
  refine ⟨?_, ?_, ?_, ?_, ?_, ?_, ?_, ?_, ?_, ?_, ?_⟩
  · intro q hq hid
    obtain ⟨orig, ho, he⟩ := mem_updateById hq
    by_cases h : orig.id = projectId
    · rw [he, if_pos h]
      exact ⟨rfl, rfl, rfl⟩
    · rw [he, if_neg h] at hid
      exact absurd hid h
  · intro q hq hid
    obtain ⟨orig, ho, he⟩ := mem_updateById hq
    by_cases h : orig.id = projectId
    · rw [he, if_pos h]
      exact ⟨rfl, rfl, rfl⟩
    · rw [he, if_neg h] at hid
      exact absurd hid h
  · intro pin q hq hid
    obtain ⟨orig, ho, he⟩ := mem_updateById hq
    by_cases h : orig.id = projectId
    · rw [he, if_pos h]
    · rw [he, if_neg h] at hid
      exact absurd hid h
  · intro archive q hq hid
    obtain ⟨orig, ho, he⟩ := mem_updateById hq
    by_cases h : orig.id = projectId
    · rw [he, if_pos h]
    · rw [he, if_neg h] at hid
      exact absurd hid h
  · intro pin
    apply mutexInv_updateById hinv
    intro q hq
    cases pin with
    | true => simp
    | false => simp
  · intro archive
    apply mutexInv_updateById hinv
    intro q hq
    cases archive with
    | true => simp
    | false => simp
  · intro values projId featIds
    rw [createProject]
    by_cases ht : (trim values.title).isEmpty = true
    · rw [if_pos ht]
      exact hinv
    · rw [if_neg ht]
      intro q hq
      rcases List.mem_cons.mp hq with hq | hq
      · subst hq
        simp [createIdea]
      · exact hinv q hq
  · intro values
    rw [updateProject]
    by_cases ht : (trim values.title).isEmpty = true
    · rw [if_pos ht]
      exact hinv
    · rw [if_neg ht]
      exact mutexInv_updateById hinv fun q hq => hq
  · intro text featIds
    rw [appendFeature]
    by_cases ht : (trim text).isEmpty = true
    · rw [if_pos ht]
      exact hinv
    · rw [if_neg ht]
      split
      · exact hinv
      · split
        · exact hinv
        · dsimp only
          split
          · exact hinv
          · exact mutexInv_updateById hinv fun q hq => hq
  · intro bodies featIds
    rw [editFeatures]
    split
    · exact hinv
    · split
      · exact hinv
      · exact mutexInv_updateById hinv fun q hq => hq
  · intro confirmed
    rw [deleteProject]
    cases confirmed with
    | false => exact hinv
    | true =>
      intro q hq
      exact hinv q (List.mem_of_mem_filter hq)

theorem claim5_witness :
    mutexInv [pIdea]
      ∧ (togglePin [pIdea] (str "p1") true (str "t1")).state
          = [{ pIdea with
                isPinned := true
                isArchived := false
                updatedAt := str "t1" }]
      ∧ mutexInv (togglePin [pIdea] (str "p1") true (str "t1")).state := by
  have h := claim5_pin_archive_exclusive [pIdea] (str "p1") (str "t1")
    (by intro q hq; fin_cases hq; simp [pIdea])
  refine ⟨?_, by decide, h.2.2.2.2.1 true⟩
  intro q hq
  fin_cases hq; simp [pIdea]

/-! ### Claim C3 -/

theorem mergeFeatureBodies_length (existing : List IdeaFeature)
    (bodies : List Str) (ts : Str) (fid : Nat → Str) :
    (mergeFeatureBodies existing bodies ts fid).length
      = ((bodies.map trim).filter (fun l => !l.isEmpty)).length := by
  rw [mergeFeatureBodies]
  by_cases h : ((bodies.map trim).filter (fun l => !l.isEmpty)).isEmpty = true
  · rw [if_pos h, List.isEmpty_iff.mp h]
    rfl
  · rw [if_neg h]
    exact jsMapIdx_length _ _

theorem mergeFeatureBodies_getElem (existing : List IdeaFeature)
    (bodies : List Str) (ts : Str) (fid : Nat → Str) (i : Nat) :
    (mergeFeatureBodies existing bodies ts fid)[i]?
      = (((bodies.map trim).filter (fun l => !l.isEmpty))[i]?).map
          (fun content =>
            match existing[i]? with
            | some ex => { ex with content := content }
            | none => ⟨fid (i - existing.length), content, ts⟩) := by
  rw [mergeFeatureBodies]
  by_cases h : ((bodies.map trim).filter (fun l => !l.isEmpty)).isEmpty = true
  · rw [if_pos h, List.isEmpty_iff.mp h]
    simp
  · rw [if_neg h, jsMapIdx_getElem?]

theorem anyIdxFrom_eq_false {α : Type} {p : Nat → α → Bool} {i : Nat}
    {l : List α} :
    anyIdxFrom p i l = false ↔ ∀ j a, l[j]? = some a → p (i + j) a = false := by
  induction l generalizing i with
  | nil => simp [anyIdxFrom]
  | cons x xs ih =>
    rw [anyIdxFrom, Bool.or_eq_false_iff]
    constructor
    · rintro ⟨h1, h2⟩ j a hj
      cases j with
      | zero =>
        rw [List.getElem?_cons_zero] at hj
        cases hj
        simpa using h1
      | succ k =>
        rw [List.getElem?_cons_succ] at hj
        have := ih.mp h2 k a hj
        rwa [show i + 1 + k = i + (k + 1) from by omega] at this
    · intro h
      refine ⟨by simpa using h 0 x (by simp), ih.mpr ?_⟩
      intro j a hj
      have := h (j + 1) a (by rwa [List.getElem?_cons_succ])
      rwa [show i + (j + 1) = i + 1 + j from by omega] at this

theorem jsAnyIdx_eq_false {α : Type} {p : Nat → α → Bool} {l : List α} :
    jsAnyIdx p l = false ↔ ∀ j a, l[j]? = some a → p j a = false := by
  rw [jsAnyIdx, anyIdxFrom_eq_false]
  constructor
  · intro h j a hj
    simpa using h j a hj
  · intro h j a hj
    simpa using h j a hj

/-- The change test of editFeatures comes out false exactly when the merged
feature list equals the existing one. -/
theorem editHasChanges_false_iff (existing : List IdeaFeature)
    (bodies : List Str) (ts : Str) (fid : Nat → Str) :
    ((decide ((mergeFeatureBodies existing bodies ts fid).length
          ≠ existing.length)
        || jsAnyIdx (fun index feature =>
             match existing[index]? with
             | some old => decide (old.content ≠ feature.content)
             | none => true) (mergeFeatureBodies existing bodies ts fid))
      = false)
    ↔ mergeFeatureBodies existing bodies ts fid = existing := by
  rw [Bool.or_eq_false_iff, decide_eq_false_iff_not, not_ne_iff,
    jsAnyIdx_eq_false]
  constructor
  · rintro ⟨hlen, hall⟩
    apply List.ext_getElem?
    intro i
    by_cases hi : i < (mergeFeatureBodies existing bodies ts fid).length
    · have hie : i < existing.length := hlen ▸ hi
      obtain ⟨f, hf⟩ : ∃ f, (mergeFeatureBodies existing bodies ts fid)[i]?
          = some f := ⟨_, List.getElem?_eq_getElem hi⟩
      obtain ⟨o, ho⟩ : ∃ o, existing[i]? = some o :=
        ⟨_, List.getElem?_eq_getElem hie⟩
      have hp := hall i f hf
      rw [ho] at hp
      have hco : o.content = f.content := by simpa using hp
      have hmap := mergeFeatureBodies_getElem existing bodies ts fid i
      rw [hf, ho] at hmap
      obtain ⟨b, -, hgb⟩ := Option.map_eq_some'.mp hmap.symm
      have hfb : f = { o with content := b } := hgb.symm
      have hbc : f.content = b := by rw [hfb]
      rw [hf, ho, hfb, ← hbc, ← hco]
    · have h1 : (mergeFeatureBodies existing bodies ts fid)[i]? = none :=
        List.getElem?_eq_none (Nat.le_of_not_lt hi)
      have h2 : existing[i]? = none :=
        List.getElem?_eq_none (Nat.le_of_not_lt (hlen ▸ hi))
      rw [h1, h2]
  · intro h
    refine ⟨by rw [h], ?_⟩
    intro j a hj
    rw [h] at hj
    rw [hj]
    simp

/-- Claim C3 fails as stated: replacing the features of a project with the
texts it already has completes with a success notification but leaves
updatedAt at its old value instead of the operation timestamp. -/
theorem claim3_counterexample :
    (editFeatures [pFeat] (str "p1") [str "Realtime sync"] (str "t9")
        (fun _ => str "n")).toast
      = some (ToastStyle.success, str "Features updated")
      ∧ (editFeatures [pFeat] (str "p1") [str "Realtime sync"] (str "t9")
          (fun _ => str "n")).state.map (fun q => q.updatedAt) = [str "t0"]
      ∧ ¬(editFeatures [pFeat] (str "p1") [str "Realtime sync"] (str "t9")
          (fun _ => str "n")).state.map (fun q => q.updatedAt) = [str "t9"] := by
  refine ⟨by decide, by decide, by decide⟩

/-- Claim C3 (amended): every successfully completing mutation writes the
operation timestamp into updatedAt of the target — createProject stamps the
new record, updateProject, appendFeature, togglePin and toggleArchive stamp
every stored record carrying the target id — except editFeatures, which
leaves updatedAt unchanged when the merged feature list coincides with the
existing one and stamps the timestamp otherwise. -/
theorem claim3_updatedAt (stored : List Idea) (projectId now : Str) :
    (∀ (values : ProjectFormValues) (projId : Str) (featIds : Nat → Str) q,
        trim values.title ≠ [] →
        (createProject stored values now projId featIds).state.head? = some q →
        q.updatedAt = now ∧ q.createdAt = now)
      ∧ (∀ (values : ProjectFormValues), trim values.title ≠ [] →
          ∀ q ∈ (updateProject stored projectId values now).state,
            q.id = projectId → q.updatedAt = now)
      ∧ (∀ (text : Str) (featIds : Nat → Str) (p : Idea), trim text ≠ [] →
          stored.find? (fun item => item.id = projectId) = some p →
          p.isArchived = false →
          ∀ q ∈ (appendFeature stored projectId text now featIds).state,
            q.id = projectId → q.updatedAt = now)
      ∧ (∀ (pin : Bool), ∀ q ∈ (togglePin stored projectId pin now).state,
          q.id = projectId → q.updatedAt = now)
      ∧ (∀ (archive : Bool),
          ∀ q ∈ (toggleArchive stored projectId archive now).state,
            q.id = projectId → q.updatedAt = now)
      ∧ (∀ (bodies : List Str) (fid : Nat → Str) (pre post : List Idea)
            (p : Idea),
          stored = pre ++ p :: post → p.id = projectId →
          (∀ q ∈ pre, ¬q.id = projectId) → (∀ q ∈ post, ¬q.id = projectId) →
          p.isArchived = false →
          (editFeatures stored projectId bodies now fid).state
            = pre
              ++ { p with
                    features := mergeFeatureBodies p.features bodies now fid,
                    updatedAt :=
                      if mergeFeatureBodies p.features bodies now fid
                          = p.features
                      then p.updatedAt else now } :: post) := by
  refine ⟨?_, ?_, ?_, ?_, ?_, ?_⟩
  · intro values projId featIds q ht hq
    rw [createProject, if_neg (by simpa [List.isEmpty_iff] using ht)] at hq
    rw [List.head?_cons] at hq
    cases hq
    exact ⟨rfl, rfl⟩
  · intro values ht q hq hid
    rw [updateProject, if_neg (by simpa [List.isEmpty_iff] using ht)] at hq
    obtain ⟨orig, ho, h, rfl⟩ :=
      mem_updateById_target hq hid
    rfl
  · intro text featIds p ht hfind harch q hq hid
    have htrimmedNe : ¬(trim text).isEmpty = true := by
      simpa [List.isEmpty_iff] using ht
    have hFne : ¬(createFeaturesFromText (some (trim text)) now featIds).isEmpty
        = true := by
      rw [createFeaturesFromText_some, nonBlankLines_trim]
      intro hc
      have := List.isEmpty_iff.mp hc
      have hlen := jsMapIdx_length
        (fun i c => (⟨featIds i, c, now⟩ : IdeaFeature)) (nonBlankLines text)
      rw [this] at hlen
      exact nonBlankLines_ne_nil ht (List.eq_nil_of_length_eq_zero hlen.symm)
    rw [appendFeature] at hq
    rw [if_neg htrimmedNe] at hq
    simp only [hfind] at hq
    rw [if_neg (show ¬p.isArchived = true by simp [harch]), if_neg hFne] at hq
    obtain ⟨orig, ho, h, rfl⟩ :=
      mem_updateById_target hq hid
    rfl
  · intro pin q hq hid
    obtain ⟨orig, ho, h, rfl⟩ :=
      mem_updateById_target hq hid
    rfl
  · intro archive q hq hid
    obtain ⟨orig, ho, h, rfl⟩ :=
      mem_updateById_target hq hid
    rfl
  · intro bodies fid pre post p hsplit hp hpre hpost harch
    subst hsplit
    have hfind : (pre ++ p :: post).find? (fun item => item.id = projectId)
        = some p := find?_of_decomp post hp hpre
    have hupdAt : (if (decide ((mergeFeatureBodies p.features bodies now
            fid).length ≠ p.features.length)
          || jsAnyIdx (fun index feature =>
               match p.features[index]? with
               | some old => decide (old.content ≠ feature.content)
               | none => true) (mergeFeatureBodies p.features bodies now fid))
          = true then now else p.updatedAt)
        = if mergeFeatureBodies p.features bodies now fid = p.features
          then p.updatedAt else now := by
      by_cases hm : mergeFeatureBodies p.features bodies now fid = p.features
      · rw [if_pos hm, (editHasChanges_false_iff p.features bodies now
          fid).mpr hm]
        simp
      · rw [if_neg hm]
        cases hb : (decide ((mergeFeatureBodies p.features bodies now
              fid).length ≠ p.features.length)
            || jsAnyIdx (fun index feature =>
                 match p.features[index]? with
                 | some old => decide (old.content ≠ feature.content)
                 | none => true)
              (mergeFeatureBodies p.features bodies now fid)) with
        | false =>
          exact absurd
            ((editHasChanges_false_iff p.features bodies now fid).mp hb) hm
        | true => rw [if_pos rfl]
    simp only [editFeatures, hfind]
    rw [if_neg (show ¬p.isArchived = true by simp [harch])]
    rw [updateById_decomp _ hp hpre hpost]
    rw [show ({ p with
          features := mergeFeatureBodies p.features bodies now fid,
          updatedAt := if (decide ((mergeFeatureBodies p.features bodies now
                fid).length ≠ p.features.length)
              || jsAnyIdx (fun index feature =>
                   match p.features[index]? with
                   | some old => decide (old.content ≠ feature.content)
                   | none => true)
                (mergeFeatureBodies p.features bodies now fid)) = true
            then now else p.updatedAt } : Idea)
        = { p with
              features := mergeFeatureBodies p.features bodies now fid,
              updatedAt := if mergeFeatureBodies p.features bodies now fid
                  = p.features then p.updatedAt else now }
      from by rw [hupdAt]]

theorem claim3_witness :
    trim (str "New Title") ≠ []
      ∧ (∀ q ∈ (updateProject [pIdea] (str "p1")
            ⟨str "New Title", none, none, none⟩ (str "t2")).state,
          q.id = str "p1" → q.updatedAt = str "t2")
      ∧ (editFeatures [pFeat] (str "p1") [str "Changed"] (str "t2")
          (fun _ => str "n")).state
        = [{ pFeat with
              features := [⟨str "f1", str "Changed", str "t0"⟩],
              updatedAt := str "t2" }] := by
  have h := claim3_updatedAt [pIdea] (str "p1") (str "t2")
  have h2 := claim3_updatedAt [pFeat] (str "p1") (str "t2")
  refine ⟨by decide, h.2.1 ⟨str "New Title", none, none, none⟩ (by decide), ?_⟩
  have he := h2.2.2.2.2.2 [str "Changed"] (fun _ => str "n") [] [] pFeat rfl
    (by decide) (by simp) (by simp) (by decide)
  rw [he]
  decide

/-! ### Claim C2 -/

/-- Claim C2 fails as stated: updating the metadata of a missing target
record surfaces a success notification, not a failure one (the state is
left unchanged). -/
theorem claim2_counterexample :
    (updateProject [] (str "missing") ⟨str "T", none, none, none⟩
        (str "t1")).toast = some (ToastStyle.success, str "Project updated")
      ∧ (updateProject [] (str "missing") ⟨str "T", none, none, none⟩
          (str "t1")).state = []
      ∧ ToastStyle.success ≠ ToastStyle.failure := by
  refine ⟨by decide, by decide, by decide⟩

/-- Claim C2 (amended): the validation errors each operation actually
checks — empty title for create and update, empty feature text for append,
missing or archived target for append and bulk-replace — surface a failure
notification and leave the stored array unchanged; update-metadata, toggle
pin and toggle archive do not validate the target: on a missing target
they leave every stored element unchanged but surface a success
notification; bulk-replace does not validate empty feature text. -/
theorem claim2_validation (stored : List Idea) (projectId now : Str) :
    (∀ (values : ProjectFormValues) (projId : Str) (featIds : Nat → Str),
        trim values.title = [] →
        createProject stored values now projId featIds
          = ⟨stored, some (ToastStyle.failure, str "Project name is required"),
             none⟩)
      ∧ (∀ (values : ProjectFormValues), trim values.title = [] →
          updateProject stored projectId values now
            = ⟨stored,
               some (ToastStyle.failure, str "Project name is required"),
               none⟩)
      ∧ (∀ (text : Str) (featIds : Nat → Str), trim text = [] →
          appendFeature stored projectId text now featIds
            = ⟨stored,
               some (ToastStyle.failure, str "Feature text cannot be empty"),
               none⟩)
      ∧ (∀ (text : Str) (featIds : Nat → Str), trim text ≠ [] →
          stored.find? (fun item => item.id = projectId) = none →
          appendFeature stored projectId text now featIds
            = ⟨stored, some (ToastStyle.failure, str "Project not found"),
               none⟩)
      ∧ (∀ (text : Str) (featIds : Nat → Str) (p : Idea), trim text ≠ [] →
          stored.find? (fun item => item.id = projectId) = some p →
          p.isArchived = true →
          appendFeature stored projectId text now featIds
            = ⟨stored, some (ToastStyle.failure, str "Project is archived"),
               none⟩)
      ∧ (∀ (bodies : List Str) (featIds : Nat → Str),
          stored.find? (fun item => item.id = projectId) = none →
          editFeatures stored projectId bodies now featIds
            = ⟨stored, some (ToastStyle.failure, str "Project not found"),
               none⟩)
      ∧ (∀ (bodies : List Str) (featIds : Nat → Str) (p : Idea),
          stored.find? (fun item => item.id = projectId) = some p →
          p.isArchived = true →
          editFeatures stored projectId bodies now featIds
            = ⟨stored, some (ToastStyle.failure, str "Project is archived"),
               none⟩)
      ∧ (∀ (values : ProjectFormValues), trim values.title ≠ [] →
          (∀ q ∈ stored, ¬q.id = projectId) →
          updateProject stored projectId values now
            = ⟨stored, some (ToastStyle.success, str "Project updated"),
               none⟩)
      ∧ (∀ (pin : Bool), (∀ q ∈ stored, ¬q.id = projectId) →
          (togglePin stored projectId pin now).state = stored
            ∧ ((togglePin stored projectId pin now).toast).map Prod.fst
              = some ToastStyle.success)
      ∧ (∀ (archive : Bool), (∀ q ∈ stored, ¬q.id = projectId) →
          (toggleArchive stored projectId archive now).state = stored
            ∧ ((toggleArchive stored projectId archive now).toast).map
                Prod.fst = some ToastStyle.success) := by
  refine ⟨?_, ?_, ?_, ?_, ?_, ?_, ?_, ?_, ?_, ?_⟩
  · intro values projId featIds ht
    rw [createProject, if_pos (by simpa [List.isEmpty_iff] using ht)]
  · intro values ht
    rw [updateProject, if_pos (by simpa [List.isEmpty_iff] using ht)]
  · intro text featIds ht
    rw [appendFeature, if_pos (by simpa [List.isEmpty_iff] using ht)]
  · intro text featIds ht hfind
    rw [appendFeature, if_neg (by simpa [List.isEmpty_iff] using ht)]
    simp only [hfind]
  · intro text featIds p ht hfind harch
    rw [appendFeature, if_neg (by simpa [List.isEmpty_iff] using ht)]
    simp only [hfind]
    rw [if_pos harch]
  · intro bodies featIds hfind
    rw [editFeatures]
    simp only [hfind]
  · intro bodies featIds p hfind harch
    rw [editFeatures]
    simp only [hfind]
    rw [if_pos harch]
  · intro values ht hmiss
    rw [updateProject, if_neg (by simpa [List.isEmpty_iff] using ht)]
    dsimp only
    rw [updateById_of_none _ hmiss]
    rw [List.find?_eq_none.mpr (by simpa using hmiss)]
  · intro pin hmiss
    rw [togglePin, updateById_of_none _ hmiss]
    exact ⟨rfl, rfl⟩
  · intro archive hmiss
    rw [toggleArchive, updateById_of_none _ hmiss]
    exact ⟨rfl, rfl⟩

theorem claim2_witness :
    trim (str "  ") = []
      ∧ createProject [pIdea] ⟨str "  ", none, none, none⟩ (str "t1")
          (str "id9") (fun _ => str "f")
        = ⟨[pIdea],
           some (ToastStyle.failure, str "Project name is required"), none⟩
      ∧ (appendFeature [pIdea] (str "ghost") (str "x") (str "t1")
          (fun _ => str "f"))
        = ⟨[pIdea], some (ToastStyle.failure, str "Project not found"),
           none⟩ := by
  have h := claim2_validation [pIdea] (str "ghost") (str "t1")
  refine ⟨by decide,
    h.1 ⟨str "  ", none, none, none⟩ (str "id9") (fun _ => str "f")
      (by decide), ?_⟩
  exact h.2.2.2.1 (str "x") (fun _ => str "f") (by decide) (by decide)

/-! ### Claim C7 -/

/-- Claim C7: formatIdeaMarkdown renders, in order, the heading line with
the title, the summary paragraph exactly when a summary is present (a
present summary is non-empty under the data model, which the hypothesis
records), the status line with Archived over Pinned over Active precedence,
the tags line exactly when tags are non-empty, the created and updated
lines through the injectable date formatter, and then one bulleted line per
feature when features exist and the placeholder line otherwise; and
formatIdeasMarkdown returns the placeholder sentence for the empty
collection and otherwise joins the per-idea blocks with a literal ---
separator line. -/
theorem claim7_formatMarkdown (idea : Idea) (ideas : List Idea)
    (i1 i2 : Idea) (fd : Str → Str) :
    (idea.summary ≠ some [] →
      formatIdeaMarkdown idea fd
        = str "# " ++ idea.title ++ str "\n" ++ str "\n"
          ++ (match idea.summary with
              | some s => s ++ str "\n" ++ str "\n"
              | none => [])
          ++ str "**Status:** "
          ++ (if idea.isArchived then str "Archived"
              else if idea.isPinned then str "Pinned" else str "Active")
          ++ str "\n" ++ str "\n"
          ++ (if idea.tags = [] then []
              else str "**Tags:** " ++ joinSep (str ", ") idea.tags
                ++ str "\n" ++ str "\n")
          ++ str "- Created: " ++ fd idea.createdAt ++ str "\n"
          ++ str "- Updated: " ++ fd idea.updatedAt ++ str "\n" ++ str "\n"
          ++ (if idea.features = [] then str "_No features captured yet._"
              else str "## Features" ++ str "\n" ++ str "\n"
                ++ joinSep (str "\n")
                    (idea.features.map (fun f => str "- " ++ f.content))))
      ∧ formatIdeasMarkdown [] fd = str "_No ideas captured yet._"
      ∧ (ideas ≠ [] → formatIdeasMarkdown ideas fd
          = joinSep (str "\n\n---\n\n")
              (ideas.map (formatIdeaMarkdown · fd)))
      ∧ formatIdeasMarkdown [i1, i2] fd
          = formatIdeaMarkdown i1 fd ++ str "\n\n---\n\n"
            ++ formatIdeaMarkdown i2 fd := by
  refine ⟨?_, rfl, ?_, ?_⟩
  · intro hsum
    cases hs : idea.summary with
    | none =>
      cases ht : idea.tags with
      | nil =>
        cases hf : idea.features with
        | nil => simp [formatIdeaMarkdown, joinSep, hs, ht, hf,
            List.append_assoc]
        | cons f fs => simp [formatIdeaMarkdown, joinSep, hs, ht, hf,
            List.append_assoc]
      | cons t tts =>
        cases hf : idea.features with
        | nil => simp [formatIdeaMarkdown, joinSep, hs, ht, hf,
            List.append_assoc]
        | cons f fs => simp [formatIdeaMarkdown, joinSep, hs, ht, hf,
            List.append_assoc]
    | some s =>
      have hsne : ¬s.isEmpty = true := by
        rw [hs] at hsum
        simpa [List.isEmpty_iff] using fun h => hsum (by rw [h])
      cases ht : idea.tags with
      | nil =>
        cases hf : idea.features with
        | nil => simp [formatIdeaMarkdown, joinSep, hs, hsne, ht, hf,
            List.append_assoc]
        | cons f fs => simp [formatIdeaMarkdown, joinSep, hs, hsne, ht, hf,
            List.append_assoc]
      | cons t tts =>
        cases hf : idea.features with
        | nil => simp [formatIdeaMarkdown, joinSep, hs, hsne, ht, hf,
            List.append_assoc]
        | cons f fs => simp [formatIdeaMarkdown, joinSep, hs, hsne, ht, hf,
            List.append_assoc]
  · intro hne
    rw [formatIdeasMarkdown, if_neg (by simpa [List.isEmpty_iff] using hne)]
  · rw [formatIdeasMarkdown]
    rfl

theorem claim7_witness :
    pFeat.summary ≠ some []
      ∧ formatIdeaMarkdown pFeat (fun s => s)
        = str "# " ++ pFeat.title ++ str "\n" ++ str "\n"
          ++ []
          ++ str "**Status:** " ++ str "Active" ++ str "\n" ++ str "\n"
          ++ []
          ++ str "- Created: " ++ pFeat.createdAt ++ str "\n"
          ++ str "- Updated: " ++ pFeat.updatedAt ++ str "\n" ++ str "\n"
          ++ (str "## Features" ++ str "\n" ++ str "\n"
              ++ joinSep (str "\n")
                  (pFeat.features.map (fun f => str "- " ++ f.content))) := by
  have h := (claim7_formatMarkdown pFeat [] pFeat pFeat (fun s => s)).1
    (by decide)
  refine ⟨by decide, ?_⟩
  rw [h]
  decide

/-! ### Claim C8 -/

theorem trimEnd_idem (l : Str) : trimEnd (trimEnd l) = trimEnd l := by
  simp [trimEnd, List.reverse_reverse, List.dropWhile_idempotent]

theorem trimStart_trim (s : Str) : trimStart (trim s) = trim s := by
  cases h : trim s with
  | nil => rfl
  | cons c rest =>
    have hws := ws_head_trim h
    simp [trimStart, List.dropWhile_cons, hws]

theorem trim_idem (s : Str) : trim (trim s) = trim s := by
  have h1 : trim (trim s) = trimEnd (trim s) := by
    rw [show trim (trim s) = trimEnd (trimStart (trim s)) from rfl,
      trimStart_trim]
  rw [h1, show trim s = trimEnd (trimStart s) from rfl, trimEnd_idem]

/-- Well-formed import features: non-blank and already trimmed. -/
def featuresWF (p : MarkdownImportProject) : Prop :=
  ∀ f ∈ p.features, f ≠ [] ∧ trim f = f

theorem featuresWF_pushCurrent {st : ParseState}
    (h : ∀ p ∈ st.projects, featuresWF p) :
    ∀ p ∈ (pushCurrent st).projects, featuresWF p := by
  intro p hp
  rcases hst : st.currentTitle with - | t
  · simp only [pushCurrent, hst] at hp
    exact h p hp
  · simp only [pushCurrent, hst] at hp
    by_cases hte : t.isEmpty = true
    · rw [if_pos hte] at hp
      exact h p hp
    · rw [if_neg hte] at hp
      rcases List.mem_append.mp hp with hp | hp
      · exact h p hp
      · rcases List.mem_singleton.mp hp with rfl
        intro f hf
        have hne := List.of_mem_filter hf
        have hmem := List.mem_of_mem_filter hf
        obtain ⟨g, -, rfl⟩ := List.mem_map.mp hmem
        refine ⟨by simpa [List.isEmpty_iff] using hne, trim_idem g⟩

theorem featuresWF_parseStep {st : ParseState} (rawLine : Str)
    (h : ∀ p ∈ st.projects, featuresWF p) :
    ∀ p ∈ (parseStep st rawLine).projects, featuresWF p := by
  rw [parseStep]
  by_cases hb : (trim rawLine).isEmpty = true
  · rw [if_pos hb]
    exact featuresWF_pushCurrent h
  · rw [if_neg hb]
    cases hbc : bulletContent (trim rawLine) with
    | some content => exact h
    | none =>
      by_cases hflush : ((match st.currentTitle with
          | some t => !t.isEmpty
          | none => false) || decide (st.currentFeatures.length > 0)) = true
      · dsimp only
        rw [if_pos hflush]
        exact featuresWF_pushCurrent h
      · dsimp only
        rw [if_neg hflush]
        exact h

theorem featuresWF_foldl (lines : List Str) (st : ParseState)
    (h : ∀ p ∈ st.projects, featuresWF p) :
    ∀ p ∈ (lines.foldl parseStep st).projects, featuresWF p := by
  induction lines generalizing st with
  | nil => exact h
  | cons l ls ih =>
    rw [List.foldl_cons]
    exact ih (parseStep st l) (featuresWF_parseStep l h)

/-- Claim C8 fails as stated: a line holding a bare dash starts with a
bullet marker, yet the parser treats it as a title line, producing a
project titled with the dash instead of a pending feature under the
default title. -/
theorem claim8_counterexample :
    parseIdeasFromMarkdown (str "-") = [⟨str "-", []⟩]
      ∧ ¬parseIdeasFromMarkdown (str "-")
          = [⟨str "Untitled Project", []⟩] := by
  refine ⟨by decide, by decide⟩

/-- Claim C8 (amended): parseIdeasFromMarkdown folds over the lines in
order where a blank line flushes the current project; a line whose trimmed
form starts with a dash or star followed by at least one further character
appends the trimmed remainder as a pending feature, defaulting the title
to Untitled Project when none is set; any other non-blank line (including
a bare dash or star) flushes the previous project and becomes the title of
a new one, with the leading hash run stripped when content follows it (a
line of two or more hash marks alone keeps a single hash mark); the result
keeps exactly the completed projects with a non-empty title, and every
returned feature is non-blank and trimmed. -/
theorem claim8_parseIdeasFromMarkdown (md rawLine : Str) (st : ParseState) :
    parseIdeasFromMarkdown md
        = (pushCurrent
            ((splitLines md).foldl parseStep ⟨[], none, []⟩)).projects.filter
            (fun p => !p.title.isEmpty)
      ∧ (∀ p ∈ parseIdeasFromMarkdown md, p.title ≠ [])
      ∧ (∀ p ∈ parseIdeasFromMarkdown md, featuresWF p)
      ∧ (trim rawLine = [] → parseStep st rawLine = pushCurrent st)
      ∧ (∀ c rest, trim rawLine = c :: rest → (c = '-' ∨ c = '*') →
          rest ≠ [] →
          parseStep st rawLine
            = { st with
                  currentTitle := some (match st.currentTitle with
                    | some t => if t.isEmpty then str "Untitled Project"
                        else t
                    | none => str "Untitled Project")
                  currentFeatures := st.currentFeatures ++ [trim rest] })
      ∧ (∀ c rest, trim rawLine = c :: rest →
          ¬((c = '-' ∨ c = '*') ∧ rest ≠ []) →
          parseStep st rawLine
            = { (if (match st.currentTitle with
                     | some t => !t.isEmpty
                     | none => false) || st.currentFeatures.length > 0
                 then pushCurrent st else st) with
                  currentTitle := some
                    (if ((headingContent (trim rawLine)).getD
                        (trim rawLine)).isEmpty
                     then str "Untitled Project"
                     else (headingContent (trim rawLine)).getD
                        (trim rawLine)) }) := by
  have hfilter : parseIdeasFromMarkdown md
      = (pushCurrent
          ((splitLines md).foldl parseStep ⟨[], none, []⟩)).projects.filter
          (fun p => !p.title.isEmpty) := by
    rw [parseIdeasFromMarkdown]
    apply List.filter_congr
    intro p hp
    cases hpt : p.title with
    | nil => simp
    | cons c cs => simp
  refine ⟨hfilter, ?_, ?_, ?_, ?_, ?_⟩
  · intro p hp
    rw [hfilter] at hp
    have := List.of_mem_filter hp
    simpa [List.isEmpty_iff] using this
  · intro p hp
    rw [hfilter] at hp
    have hmem := List.mem_of_mem_filter hp
    exact featuresWF_pushCurrent
      (featuresWF_foldl (splitLines md) ⟨[], none, []⟩ (by intro q hq; simp at hq))
      p hmem
  · intro h
    rw [parseStep, if_pos (by simp [h])]
  · intro c rest hline hc hrest
    rw [parseStep, hline]
    rw [if_neg (by simp)]
    have hbc : bulletContent (c :: rest) = some (trim rest) := by
      rw [bulletContent,
        if_pos (by
          simp only [Bool.and_eq_true, Bool.or_eq_true, decide_eq_true_eq]
          exact ⟨hc, by simpa [List.isEmpty_iff] using hrest⟩)]
    rw [hbc]
  · intro c rest hline hnc
    rw [parseStep, hline]
    rw [if_neg (by simp)]
    have hbc : bulletContent (c :: rest) = none := by
      rw [bulletContent, if_neg (by
        simp only [Bool.and_eq_true, Bool.or_eq_true, decide_eq_true_eq]
        intro hcontra
        exact hnc ⟨hcontra.1, by simpa [List.isEmpty_iff] using hcontra.2⟩)]
    rw [hbc, ← hline]

theorem claim8_witness :
    trim (str "- x") = '-' :: str " x"
      ∧ ((('-' : Char) = '-' ∨ ('-' : Char) = '*') ∧ str " x" ≠ [])
      ∧ parseStep ⟨[], none, []⟩ (str "- x")
        = ⟨[], some (str "Untitled Project"), [str "x"]⟩
      ∧ (∀ p ∈ parseIdeasFromMarkdown (str "# A\n- x\n\n##\n- y"),
          p.title ≠ []) := by
  have h := claim8_parseIdeasFromMarkdown (str "# A\n- x\n\n##\n- y")
    (str "- x") (⟨[], none, []⟩ : ParseState)
  refine ⟨by decide, ⟨Or.inl rfl, by decide⟩, ?_, h.2.1⟩
  have hstep := h.2.2.2.2.1 '-' (str " x") (by decide) (Or.inl rfl) (by decide)
  rw [hstep]
  decide

end IdeaTracker
